import Mathlib

/-!
Verification of the retry / pagination / parsing behaviour of
`github_commits.py` (repository `sumedhk0/github_analyzer`).

The Python source is shallowly embedded:

* Python `str` values are embedded as `List Char` (for the string-surgery
  code paths: `split`, `strip`, `in`, `lower`) or as `String` (for values
  that are only compared or stored).
* `requests.get` and the Anthropic client are external effects; they are
  modelled as oracles (functions from the attempt/page/user to the outcome
  the network produces).
* `json.loads` from the Python standard library is modelled both abstractly
  (an arbitrary `List Char → Option Json` parameter, for the universally
  quantified theorems) and concretely (`jsonLoads`, an executable model of
  the JSON grammar restricted to the fragment exercised here, for closed
  witnesses and counterexamples).
* loops are embedded as structural recursion; the unbounded `while True`
  pagination loops take explicit fuel and return `none` when the fuel is
  exhausted (the Python loop simply has not terminated yet at that fuel).
-/

namespace GithubAnalyzer

/-! ## Python string primitives

Embeddings of the Python string operations used by `github_commits.py`:
`sep in s`, `s.split(sep)[0]`, `s.split(sep)[1]`, `s.strip()`, `s.lower()`.
-/

/-- Model of Python `str.lower` (ASCII, which is all the code compares). -/
def pyLower (s : List Char) : List Char := s.map Char.toLower

/-- Characters stripped by Python `str.strip()` with no argument. -/
def pyIsWs (c : Char) : Bool :=
  c == ' ' || c == '\t' || c == '\n' || c == '\r' || c == Char.ofNat 11 || c == Char.ofNat 12

/-- Leading-whitespace removal, first half of Python `str.strip()`. -/
def stripLeft (s : List Char) : List Char := s.dropWhile pyIsWs

/-- Trailing-whitespace removal, second half of Python `str.strip()`. -/
def stripRight (s : List Char) : List Char := (s.reverse.dropWhile pyIsWs).reverse

/-- Model of Python `str.strip()`. -/
def pyStrip (s : List Char) : List Char := stripRight (stripLeft s)

/-- Everything before the first occurrence of `sep` in `s` (the whole of `s`
when `sep` does not occur): Python `s.split(sep)[0]`. -/
def beforeFirst (sep : List Char) : List Char → List Char
  | [] => []
  | a :: rest =>
    if sep.isPrefixOf (a :: rest) then []
    else a :: beforeFirst sep rest

/-- Everything after the first occurrence of `sep` in `s`, or `none` when
`sep` does not occur.  Python `s.split(sep)[1]` is
`beforeFirst sep ((afterFirst sep s).getD [])`, and the `getD` default is
never reached when the code has already checked `sep in s`. -/
def afterFirst (sep : List Char) : List Char → Option (List Char)
  | [] => none
  | a :: rest =>
    if sep.isPrefixOf (a :: rest) then some (rest.drop (sep.length - 1))
    else afterFirst sep rest

/-- Model of Python `sep in s` (substring containment). -/
def containsSub (hay sep : List Char) : Bool := decide (sep <:+: hay)

/-! ## Lemmas about the string primitives -/

theorem beforeFirst_of_not_sub {sep s : List Char} (h : ¬ sep <:+: s) :
    beforeFirst sep s = s := by
  induction s with
  | nil => rfl
  | cons a rest ih =>
    have hnp : ¬ sep.isPrefixOf (a :: rest) = true := fun hp =>
      h ((List.isPrefixOf_iff_prefix.1 hp).isInfix)
    rw [beforeFirst, if_neg hnp, ih fun hs => h (List.infix_cons hs)]

theorem afterFirst_of_not_sub {sep s : List Char} (h : ¬ sep <:+: s) :
    afterFirst sep s = none := by
  induction s with
  | nil => rfl
  | cons a rest ih =>
    have hnp : ¬ sep.isPrefixOf (a :: rest) = true := fun hp =>
      h ((List.isPrefixOf_iff_prefix.1 hp).isInfix)
    rw [afterFirst, if_neg hnp]
    exact ih fun hs => h (List.infix_cons hs)

theorem not_sub_of_length_lt {p s : List Char} (h : s.length < p.length) :
    ¬ p <:+: s := fun hs => absurd hs.length_le (Nat.not_le.2 h)

/-- A prefix longer than the left part of an append splits through it. -/
theorem prefix_append_split {p a b : List Char} (h : p <+: a ++ b)
    (hlen : a.length ≤ p.length) : ∃ q, p = a ++ q ∧ q <+: b := by
  have hap : a <+: p := List.prefix_of_prefix_length_le (a.prefix_append b) h hlen
  obtain ⟨q, hq⟩ := hap
  obtain ⟨r, hr⟩ := h
  refine ⟨q, hq.symm, r, ?_⟩
  have hall : a ++ (q ++ r) = a ++ b := by
    rw [← List.append_assoc, hq, hr]
  exact List.append_cancel_left hall

/-- No occurrence of `p` starts at the beginning of `u ++ x` when `p` does
not occur in nonempty `u` and the last character of `u` is not in `p`. -/
theorem not_prefix_append {p u x : List Char} (hu : u ≠ [])
    (hsub : ¬ p <:+: u) (hlast : ∀ c, u.getLast? = some c → c ∉ p) :
    ¬ p <+: u ++ x := by
  intro hpre
  rcases Nat.le_total p.length u.length with hle | hle
  · exact hsub ((List.prefix_of_prefix_length_le hpre (u.prefix_append x) hle).isInfix)
  · have hup : u <+: p := List.prefix_of_prefix_length_le (u.prefix_append x) hpre hle
    have hmem : u.getLast hu ∈ p := hup.subset (List.getLast_mem hu)
    exact hlast _ (List.getLast?_eq_getLast u hu) hmem

/-- Occurrences cannot span an append boundary whose left side ends in a
character not in `p`. -/
theorem not_sub_append_last {p a b : List Char}
    (ha : ¬ p <:+: a) (hb : ¬ p <:+: b)
    (hlast : ∀ c, a.getLast? = some c → c ∉ p) :
    ¬ p <:+: a ++ b := by
  induction a with
  | nil => simpa using hb
  | cons c a' ih =>
    intro hinf
    rw [List.cons_append, List.infix_cons_iff] at hinf
    rcases hinf with hpre | hinf
    · exact not_prefix_append (List.cons_ne_nil c a') ha hlast
        (by simpa using hpre)
    · cases a' with
      | nil => exact hb (by simpa using hinf)
      | cons x xs =>
        refine ih (fun hs => ha (List.infix_cons hs)) ?_ hinf
        intro e he
        exact hlast e (by simpa using he)

/-- Occurrences cannot span an append boundary whose right side starts with a
character not in `p`. -/
theorem not_sub_append_head {p a b : List Char}
    (ha : ¬ p <:+: a) (hb : ¬ p <:+: b)
    (hhead : ∀ c, b.head? = some c → c ∉ p) :
    ¬ p <:+: a ++ b := by
  induction a with
  | nil => simpa using hb
  | cons c a' ih =>
    intro hinf
    rw [List.cons_append, List.infix_cons_iff] at hinf
    rcases hinf with hpre | hinf
    · rcases Nat.le_total p.length (c :: a').length with hle | hle
      · exact ha ((List.prefix_of_prefix_length_le hpre ((c :: a').prefix_append b) hle).isInfix)
      · obtain ⟨q, hpq, hqb⟩ := prefix_append_split (by simpa using hpre) hle
        have hqne : q ≠ [] := by
          rintro rfl
          rw [List.append_nil] at hpq
          exact ha (hpq ▸ List.infix_refl p)
        obtain ⟨e, q', rfl⟩ := List.exists_cons_of_ne_nil hqne
        obtain ⟨bt, hbt⟩ := hqb
        have hep : e ∈ p := by rw [hpq]; simp
        exact hhead e (by rw [← hbt]; simp) hep
    · exact ih (fun hs => ha (List.infix_cons hs)) hinf

theorem sub_of_prefix_trans {p q s : List Char} (hpq : p <+: q) (h : q <:+: s) :
    p <:+: s := hpq.isInfix.trans h

theorem afterFirst_append_self (c0 : Char) (cs t : List Char) :
    afterFirst (c0 :: cs) ((c0 :: cs) ++ t) = some t := by
  rw [List.cons_append, afterFirst, if_pos]
  · rw [List.length_cons, Nat.add_sub_cancel, List.drop_left]
  · exact List.isPrefixOf_iff_prefix.2 (by simp)

theorem afterFirst_clean_junction {p u : List Char} (t : List Char) (hp : p ≠ [])
    (hsub : ¬ p <:+: u) (hlast : ∀ c, u.getLast? = some c → c ∉ p) :
    afterFirst p (u ++ p ++ t) = some t := by
  induction u with
  | nil =>
    obtain ⟨c0, cs, rfl⟩ := List.exists_cons_of_ne_nil hp
    simpa using afterFirst_append_self c0 cs t
  | cons c u' ih =>
    have hnp : ¬ p <+: (c :: u') ++ (p ++ t) :=
      not_prefix_append (List.cons_ne_nil c u') hsub hlast
    rw [List.append_assoc, List.cons_append, afterFirst, if_neg]
    · cases u' with
      | nil =>
        obtain ⟨c0, cs, rfl⟩ := List.exists_cons_of_ne_nil hp
        simpa using afterFirst_append_self c0 cs t
      | cons x xs =>
        rw [← List.append_assoc]
        refine ih (fun hs => hsub (List.infix_cons hs)) ?_
        intro e he
        exact hlast e (by simpa using he)
    · intro hpre
      exact hnp (by simpa [List.append_assoc] using List.isPrefixOf_iff_prefix.1 hpre)

theorem beforeFirst_clean_junction {p u : List Char} (t : List Char) (hp : p ≠ [])
    (hsub : ¬ p <:+: u) (hlast : ∀ c, u.getLast? = some c → c ∉ p) :
    beforeFirst p (u ++ p ++ t) = u := by
  induction u with
  | nil =>
    obtain ⟨c0, cs, rfl⟩ := List.exists_cons_of_ne_nil hp
    rw [List.nil_append, List.cons_append, beforeFirst, if_pos]
    exact List.isPrefixOf_iff_prefix.2 (by simp)
  | cons c u' ih =>
    have hnp : ¬ p <+: (c :: u') ++ (p ++ t) :=
      not_prefix_append (List.cons_ne_nil c u') hsub hlast
    rw [List.append_assoc, List.cons_append, beforeFirst, if_neg]
    · cases u' with
      | nil =>
        obtain ⟨c0, cs, rfl⟩ := List.exists_cons_of_ne_nil hp
        rw [List.nil_append, List.cons_append, beforeFirst, if_pos]
        exact List.isPrefixOf_iff_prefix.2 (by simp)
      | cons x xs =>
        rw [← List.append_assoc]
        rw [ih (fun hs => hsub (List.infix_cons hs)) fun e he =>
          hlast e (by simpa using he)]
    · intro hpre
      exact hnp (by simpa [List.append_assoc] using List.isPrefixOf_iff_prefix.1 hpre)

theorem pyStrip_cons_ws {c : Char} (hc : pyIsWs c = true) (s : List Char) :
    pyStrip (c :: s) = pyStrip s := by
  simp [pyStrip, stripLeft, List.dropWhile_cons, hc]

theorem pyStrip_concat_ws {c : Char} (hc : pyIsWs c = true) (s : List Char) :
    pyStrip (s ++ [c]) = pyStrip s := by
  unfold pyStrip stripLeft
  rw [List.dropWhile_append]
  split
  · next h =>
    rw [List.isEmpty_iff] at h
    simp [stripRight, hc, h]
  · unfold stripRight
    rw [List.reverse_append]
    simp [List.dropWhile_cons, hc]

/-! ## JSON

`json.loads` is Python standard-library code, not part of this repository.
For theorems quantified over all replies it stays an abstract parameter
`loads : List Char → Option Json`; for closed witnesses and counterexamples
`jsonLoads` below is an executable model of `json.loads`, restricted to the
JSON fragment exercised in this development (null, booleans, integers,
strings with the single-character escapes, arrays, objects; floats and
`\u` escapes are rejected rather than parsed).
-/

inductive Json where
  | null
  | jbool (b : Bool)
  | jnum (n : Int)
  | jstr (s : List Char)
  | jarr (xs : List Json)
  | jobj (fields : List ((List Char) × Json))

/-- JSON insignificant whitespace. -/
def jWs (c : Char) : Bool := c == ' ' || c == '\t' || c == '\n' || c == '\r'

def jSkip (s : List Char) : List Char := s.dropWhile jWs

/-- Body of a JSON string literal, after the opening quote. -/
def parseStrChars : List Char → Option ((List Char) × List Char)
  | [] => none
  | c :: rest =>
    if c == '"' then some ([], rest)
    else if c == '\\' then
      match rest with
      | [] => none
      | e :: rest' =>
        let esc : Option Char :=
          if e == '"' then some '"'
          else if e == '\\' then some '\\'
          else if e == '/' then some '/'
          else if e == 'n' then some '\n'
          else if e == 't' then some '\t'
          else if e == 'r' then some '\r'
          else if e == 'b' then some (Char.ofNat 8)
          else if e == 'f' then some (Char.ofNat 12)
          else none
        match esc with
        | none => none
        | some ch =>
          match parseStrChars rest' with
          | none => none
          | some (cs, r) => some (ch :: cs, r)
    else
      match parseStrChars rest with
      | none => none
      | some (cs, r) => some (c :: cs, r)

def digitsToNat (ds : List Char) : Nat :=
  ds.foldl (fun n c => 10 * n + (c.toNat - 48)) 0

/-- JSON number parsing, restricted to integers (a following `.`, `e` or
`E` makes the model reject where Python would build a float). -/
def parseNum (s : List Char) : Option (Int × List Char) :=
  let p := match s with
    | '-' :: r => (true, r)
    | _ => (false, s)
  let ds := p.2.takeWhile Char.isDigit
  let rest := p.2.dropWhile Char.isDigit
  if ds.isEmpty then none
  else
    let n : Int := (digitsToNat ds : Nat)
    let v : Int := if p.1 then -n else n
    match rest with
    | [] => some (v, [])
    | c :: _ => if c == '.' || c == 'e' || c == 'E' then none else some (v, rest)

def litSuffix (lit : List Char) (s : List Char) : Option (List Char) :=
  if lit.isPrefixOf s then some (s.drop lit.length) else none

/-- Parser modes: a value, the rest of an array, the rest of an object. -/
inductive JMode where
  | top
  | elems (acc : List Json)
  | fields (acc : List ((List Char) × Json))

/-- One fuel-indexed step machine for JSON values, arrays and objects. -/
def jstep : Nat → JMode → List Char → Option (Json × List Char)
  | 0, _, _ => none
  | fuel + 1, .top, s =>
    match jSkip s with
    | [] => none
    | c :: rest =>
      if c == '{' then
        match jSkip rest with
        | '}' :: r2 => some (.jobj [], r2)
        | r1 => jstep fuel (.fields []) r1
      else if c == '[' then
        match jSkip rest with
        | ']' :: r2 => some (.jarr [], r2)
        | r1 => jstep fuel (.elems []) r1
      else if c == '"' then
        match parseStrChars rest with
        | some (cs, r) => some (.jstr cs, r)
        | none => none
      else if c == 't' then
        match litSuffix "rue".toList rest with
        | some r => some (.jbool true, r)
        | none => none
      else if c == 'f' then
        match litSuffix "alse".toList rest with
        | some r => some (.jbool false, r)
        | none => none
      else if c == 'n' then
        match litSuffix "ull".toList rest with
        | some r => some (.null, r)
        | none => none
      else
        match parseNum (c :: rest) with
        | some (n, r) => some (.jnum n, r)
        | none => none
  | fuel + 1, .elems acc, s =>
    match jstep fuel .top s with
    | none => none
    | some (j, r) =>
      match jSkip r with
      | ',' :: r' => jstep fuel (.elems (j :: acc)) r'
      | ']' :: r' => some (.jarr (j :: acc).reverse, r')
      | _ => none
  | fuel + 1, .fields acc, s =>
    match jSkip s with
    | '"' :: rest =>
      match parseStrChars rest with
      | none => none
      | some (k, r) =>
        match jSkip r with
        | ':' :: r' =>
          match jstep fuel .top r' with
          | none => none
          | some (j, r'') =>
            match jSkip r'' with
            | ',' :: r3 => jstep fuel (.fields ((k, j) :: acc)) r3
            | '}' :: r3 => some (.jobj ((k, j) :: acc).reverse, r3)
            | _ => none
        | _ => none
    | _ => none

/-- Executable model of Python `json.loads` (restricted; see above). -/
def jsonLoads (s : List Char) : Option Json :=
  match jstep (4 * s.length + 16) .top s with
  | some (j, r) => if (jSkip r).isEmpty then some j else none
  | none => none

/-! ## The LLM reply parsers

The three parse sites (`analyze_commits_with_claude` lines 322-333,
`parse_job_description` lines 469-476, `analyze_candidate_for_job`
lines 602-610) share the same shape:

1. if `"```json" in response_text`:
   `response_text = response_text.split("```json")[1].split("```")[0]`,
   elif `"```" in response_text`:
   `response_text = response_text.split("```")[1].split("```")[0]`;
2. `json.loads(response_text.strip())`;
3. on `json.JSONDecodeError`, a fallback object carrying `response_text`
   (which at that point is the value produced by step 1).
-/

def fenceSepJson : List Char := "```json".toList

def fenceSep : List Char := "```".toList

/-- Step 1 above: the code-fence stripping shared by the three parsers. -/
def stripFences (text : List Char) : List Char :=
  if fenceSepJson <:+: text then
    beforeFirst fenceSep ((afterFirst fenceSepJson text).getD [])
  else if fenceSep <:+: text then
    beforeFirst fenceSep ((afterFirst fenceSep text).getD [])
  else text

/-- Outcome of a reply parse: decoded JSON, or the fallback payload built
from the (fence-stripped) reply text. -/
inductive ParseResult where
  | parsed (j : Json)
  | fallback (raw : List Char)

/-- Steps 1-3 above, with `loads` standing for `json.loads`. -/
def extractAndParse (loads : List Char → Option Json) (text : List Char) :
    ParseResult :=
  let t := stripFences text
  match loads (pyStrip t) with
  | some j => .parsed j
  | none => .fallback t

/-- Reply consisting of JSON text `S` fenced with the `json` language tag. -/
def fencedJson (S : List Char) : List Char :=
  fenceSepJson ++ ('\n' :: (S ++ ('\n' :: fenceSep)))

/-- Reply consisting of JSON text `S` fenced with no language tag. -/
def fencedPlain (S : List Char) : List Char :=
  fenceSep ++ ('\n' :: (S ++ ('\n' :: fenceSep)))

/-! ## The HTTP request wrapper

`api_request` (`github_commits.py` lines 39-68) and `check_rate_limit`
(lines 25-36).  The network is an oracle mapping the attempt index to what
that attempt produces: a connection-level exception (`SSLError`,
`ConnectionError`, `Timeout` — all handled identically) or a response.
`time.time()` at the moment `check_rate_limit` runs is part of the
response value.  Sleeps are recorded as a trace.
-/

/-- An HTTP response as `api_request` consumes it: status code, body text,
the two rate-limit headers (absent headers are `none`; `int(...)` of the
header value is modelled as the integer itself), and the value of
`time.time()` when `check_rate_limit` inspects the response (an integer:
the fractional part of the clock plays no role in any claim). -/
structure Resp where
  status : Nat
  text : List Char
  remaining : Option Int
  reset : Option Int
  now : Int
deriving DecidableEq

/-- What one `requests.get` call produces. -/
inductive AttemptOutcome where
  | conn
  | resp (r : Resp)
deriving DecidableEq

/-- What `api_request` can do: return a response, propagate an exception,
or fall off the end of the `for` loop (Python then returns `None`). -/
inductive ApiResult where
  | ok (r : Resp)
  | raised
  | retNone
deriving DecidableEq

/-- A recorded sleep: the wait inside `check_rate_limit`, the flat
`time.sleep(60)`, or the exponential backoff `time.sleep(2 ** attempt)`. -/
inductive SleepEv where
  | rateWait (n : Int)
  | flat60
  | backoff (n : Int)
deriving DecidableEq

/-- Python `"rate limit" in response.text.lower()`. -/
def hasRateLimit (t : List Char) : Bool := containsSub (pyLower t) "rate limit".toList

/-- Wait computed by `check_rate_limit`: `reset_time - time.time() + 1`. -/
def waitSeconds (r : Resp) : Int := r.reset.getD 0 - r.now + 1

/-- The condition under which `check_rate_limit` sleeps and returns `True`:
`remaining == 0 and reset_time > 0` and the computed wait is positive. -/
def rlWaits (r : Resp) : Bool :=
  r.remaining.getD 1 == 0 && r.reset.getD 0 > 0 && waitSeconds r > 0

/-- The `response.status_code == 403` / `"rate limit" in response.text.lower()`
test that sends `api_request` into its rate-limit branch. -/
def isRL403 (o : AttemptOutcome) : Bool :=
  match o with
  | .conn => false
  | .resp r => r.status == 403 && hasRateLimit r.text

/-- An attempt after which the `for` loop proceeds to the next iteration:
a rate-limited 403 (both rate-limit branches `continue`), or a connection
exception on a non-final attempt (which sleeps and loops). -/
def isContinue (maxRetries attempt : Nat) (o : AttemptOutcome) : Bool :=
  match o with
  | .conn => attempt < maxRetries - 1
  | .resp _ => isRL403 o

/-- The body of `api_request`'s `for attempt in range(max_retries)` loop,
from iteration `attempt` with `fuel` iterations left (`fuel` is
`maxRetries - attempt`; when it reaches zero the loop is over and Python
returns `None`).  The second component is the trace of sleeps. -/
def apiGo (server : Nat → AttemptOutcome) (maxRetries : Nat) :
    Nat → Nat → ApiResult × List SleepEv
  | _, 0 => (.retNone, [])
  | attempt, fuel + 1 =>
    match server attempt with
    | .conn =>
      if attempt < maxRetries - 1 then
        let rest := apiGo server maxRetries (attempt + 1) fuel
        (rest.1, .backoff ((2 ^ attempt : Nat) : Int) :: rest.2)
      else
        (.raised, [])
    | .resp r =>
      if r.status == 403 && hasRateLimit r.text then
        if rlWaits r then
          let rest := apiGo server maxRetries (attempt + 1) fuel
          (rest.1, .rateWait (waitSeconds r) :: rest.2)
        else
          let rest := apiGo server maxRetries (attempt + 1) fuel
          (rest.1, .flat60 :: rest.2)
      else
        (.ok r, [])

/-- `api_request` with the default `max_retries=3` used at every call site. -/
def apiRequest (server : Nat → AttemptOutcome) : ApiResult × List SleepEv :=
  apiGo server 3 0 3
/-- Concrete rate-limited 403 response (remaining 0, reset at 100, clock 0). -/
def rlResp : Resp := ⟨403, "API rate limit exceeded".toList, some 0, some 100, 0⟩

/-- Concrete successful 200 response. -/
def okResp : Resp := ⟨200, "[]".toList, some 50, none, 0⟩

/-- Concrete 404 response. -/
def notFoundResp : Resp := ⟨404, "Not Found".toList, some 50, none, 0⟩

/-- Server whose every attempt is a rate-limited 403. -/
def rlServer : Nat → AttemptOutcome := fun _ => .resp rlResp

/-- Server producing three rate-limited 403s and then a 200. -/
def rlThenOkServer : Nat → AttemptOutcome :=
  fun i => if i < 3 then .resp rlResp else .resp okResp

/-- Server whose every attempt raises a connection-level exception. -/
def connFailServer : Nat → AttemptOutcome := fun _ => .conn

/-- Server whose every attempt yields a 404. -/
def notFoundServer : Nat → AttemptOutcome := fun _ => .resp notFoundResp

/-! ### Step lemmas for the retry loop -/

theorem apiGo_step_rl {server : Nat → AttemptOutcome} {mR attempt fuel : Nat} {r : Resp}
    (hs : server attempt = .resp r)
    (h403 : (r.status == 403 && hasRateLimit r.text) = true) :
    apiGo server mR attempt (fuel + 1) =
      (if rlWaits r
       then ((apiGo server mR (attempt + 1) fuel).1,
         .rateWait (waitSeconds r) :: (apiGo server mR (attempt + 1) fuel).2)
       else ((apiGo server mR (attempt + 1) fuel).1,
         .flat60 :: (apiGo server mR (attempt + 1) fuel).2)) := by
  rw [apiGo, hs]
  simp only [h403, if_true]

theorem apiGo_step_ok {server : Nat → AttemptOutcome} {mR attempt fuel : Nat} {r : Resp}
    (hs : server attempt = .resp r)
    (h403 : (r.status == 403 && hasRateLimit r.text) = false) :
    apiGo server mR attempt (fuel + 1) = (.ok r, []) := by
  rw [apiGo, hs]
  simp [h403]

theorem apiGo_step_conn {server : Nat → AttemptOutcome} {mR attempt fuel : Nat}
    (hs : server attempt = .conn) (hlt : attempt < mR - 1) :
    apiGo server mR attempt (fuel + 1) =
      ((apiGo server mR (attempt + 1) fuel).1,
        .backoff ((2 ^ attempt : Nat) : Int) :: (apiGo server mR (attempt + 1) fuel).2) := by
  rw [apiGo, hs]
  simp [hlt]

theorem apiGo_step_conn_last {server : Nat → AttemptOutcome} {mR attempt fuel : Nat}
    (hs : server attempt = .conn) (hlt : ¬ attempt < mR - 1) :
    apiGo server mR attempt (fuel + 1) = (.raised, []) := by
  rw [apiGo, hs]
  simp [hlt]

theorem apiGo_fst_continue {server : Nat → AttemptOutcome} {mR attempt fuel : Nat}
    (h : isContinue mR attempt (server attempt) = true) :
    (apiGo server mR attempt (fuel + 1)).1 = (apiGo server mR (attempt + 1) fuel).1 := by
  cases hs : server attempt with
  | conn =>
    rw [hs] at h
    simp only [isContinue, decide_eq_true_eq] at h
    rw [apiGo_step_conn hs h]
  | resp r =>
    rw [hs] at h
    simp only [isContinue, isRL403] at h
    rw [apiGo_step_rl hs h]
    split <;> rfl

theorem apiGo_fst_ne_retNone_of_stop {server : Nat → AttemptOutcome}
    {mR attempt fuel : Nat}
    (h : isContinue mR attempt (server attempt) = false) :
    (apiGo server mR attempt (fuel + 1)).1 ≠ .retNone := by
  cases hs : server attempt with
  | conn =>
    rw [hs] at h
    simp only [isContinue, decide_eq_false_iff_not] at h
    rw [apiGo_step_conn_last hs h]
    simp
  | resp r =>
    rw [hs] at h
    simp only [isContinue, isRL403] at h
    rw [apiGo_step_ok hs h]
    simp

theorem isContinue_last (o : AttemptOutcome) : isContinue 3 2 o = isRL403 o := by
  cases o <;> simp [isContinue, isRL403]

theorem isContinue_of_isRL403 {o : AttemptOutcome} {mR attempt : Nat}
    (h : isRL403 o = true) : isContinue mR attempt o = true := by
  cases o with
  | conn => simp [isRL403] at h
  | resp r => simpa [isContinue] using h

/-- Claim C1, counterexample: a server that answers every attempt with a
rate-limited 403 drives `api_request` off the end of its `for` loop, so the
function returns `None` — contradicting "it never returns any other value
(in particular, never None)". -/
theorem claim_C1_counterexample :
    apiRequest rlServer = (.retNone, [.rateWait 101, .rateWait 101, .rateWait 101]) := by
  decide

/-- Claim C1, amended: `api_request` returns a response or raises, except
that it returns `None` exactly when the first two attempts each end in a
connection failure or a rate-limited 403 and the third attempt receives a
rate-limited 403 (every loop iteration ran `continue` and the loop was
exhausted). -/
theorem claim_C1_amended (server : Nat → AttemptOutcome) :
    (apiRequest server).1 = .retNone ↔
      (isContinue 3 0 (server 0) && isContinue 3 1 (server 1) &&
        isRL403 (server 2)) = true := by
  constructor
  · intro hr
    by_cases c0 : isContinue 3 0 (server 0) = true
    · have h0 : (apiGo server 3 0 3).1 = (apiGo server 3 1 2).1 := apiGo_fst_continue c0
      rw [show apiRequest server = apiGo server 3 0 3 from rfl, h0] at hr
      by_cases c1 : isContinue 3 1 (server 1) = true
      · have h1 : (apiGo server 3 1 2).1 = (apiGo server 3 2 1).1 := apiGo_fst_continue c1
        rw [h1] at hr
        by_cases c2 : isContinue 3 2 (server 2) = true
        · rw [c0, c1, ← isContinue_last, c2]
          rfl
        · exact absurd hr (apiGo_fst_ne_retNone_of_stop (Bool.eq_false_iff.2 c2))
      · exact absurd hr (apiGo_fst_ne_retNone_of_stop (Bool.eq_false_iff.2 c1))
    · exact absurd hr (apiGo_fst_ne_retNone_of_stop (Bool.eq_false_iff.2 c0))
  · intro hc
    rw [Bool.and_eq_true, Bool.and_eq_true] at hc
    obtain ⟨⟨c0, c1⟩, c2⟩ := hc
    show (apiGo server 3 0 3).1 = .retNone
    rw [apiGo_fst_continue c0, apiGo_fst_continue c1,
      apiGo_fst_continue (isContinue_last (server 2) ▸ c2)]
    rfl

/-- Claim C2, counterexample: rate-limited retries do count against the
3-attempt budget.  A server that answers the first three attempts with
rate-limited 403s and would answer a fourth attempt with a 200 never gets
that fourth request: `api_request` stops at `None` after three attempts,
whereas the claim ("without that retry counting against the retry budget")
implies the 200 response would be returned. -/
theorem claim_C2_counterexample :
    apiRequest rlThenOkServer =
        (.retNone, [.rateWait 101, .rateWait 101, .rateWait 101]) ∧
      rlThenOkServer 3 = .resp okResp := by
  constructor
  · decide
  · decide

/-- Claim C2, amended: on a 403 whose body contains "rate limit", if
`X-RateLimit-Remaining` is 0, a reset timestamp is present and the wait
`reset - now + 1` is positive, the code sleeps that wait and retries;
otherwise it sleeps a flat 60 seconds and retries — but each such retry
consumes one of the 3 loop attempts, and three rate-limited 403s in a row
exhaust the loop, making `api_request` return `None`. -/
theorem claim_C2_amended :
    (∀ (server : Nat → AttemptOutcome) (mR attempt fuel : Nat) (r : Resp),
      server attempt = .resp r →
      (r.status == 403 && hasRateLimit r.text) = true →
      apiGo server mR attempt (fuel + 1) =
        (if rlWaits r
         then ((apiGo server mR (attempt + 1) fuel).1,
           .rateWait (waitSeconds r) :: (apiGo server mR (attempt + 1) fuel).2)
         else ((apiGo server mR (attempt + 1) fuel).1,
           .flat60 :: (apiGo server mR (attempt + 1) fuel).2))) ∧
    (∀ server : Nat → AttemptOutcome,
      (∀ i, i < 3 → isRL403 (server i) = true) →
      (apiRequest server).1 = .retNone) := by
  constructor
  · intro server mR attempt fuel r hs h403
    exact apiGo_step_rl hs h403
  · intro server h
    show (apiGo server 3 0 3).1 = .retNone
    rw [apiGo_fst_continue (isContinue_of_isRL403 (h 0 (by omega))),
      apiGo_fst_continue (isContinue_of_isRL403 (h 1 (by omega))),
      apiGo_fst_continue (isContinue_of_isRL403 (h 2 (by omega)))]
    rfl

/-- Witness for claim C2's amended theorem at the concrete all-rate-limited
server. -/
theorem claim_C2_amended_witness : (apiRequest rlServer).1 = .retNone :=
  claim_C2_amended.2 rlServer (by decide)

/-- Claim C3, counterexample: with connection failures on every attempt the
code makes 3 attempts in total, sleeping 1s and then 2s between them, and
raises on the third; the claimed third backoff sleep of 4s never occurs. -/
theorem claim_C3_counterexample :
    apiRequest connFailServer = (.raised, [.backoff 1, .backoff 2]) ∧
      SleepEv.backoff 4 ∉ (apiRequest connFailServer).2 := by
  constructor
  · decide
  · decide

/-- Claim C3, amended: on connection-level failures `api_request` makes at
most 3 attempts (2 retries): a failure on a non-final attempt sleeps
`2 ** attempt` seconds (1s after the first attempt, 2s after the second)
and retries, a failure on the third attempt propagates the exception, so a
server that fails every attempt yields exactly the sleeps 1s, 2s and then
the raised exception. -/
theorem claim_C3_amended :
    (∀ (server : Nat → AttemptOutcome) (mR attempt fuel : Nat),
      server attempt = .conn → attempt < mR - 1 →
      apiGo server mR attempt (fuel + 1) =
        ((apiGo server mR (attempt + 1) fuel).1,
          .backoff ((2 ^ attempt : Nat) : Int) :: (apiGo server mR (attempt + 1) fuel).2)) ∧
    (∀ (server : Nat → AttemptOutcome) (mR attempt fuel : Nat),
      server attempt = .conn → ¬ attempt < mR - 1 →
      apiGo server mR attempt (fuel + 1) = (.raised, [])) ∧
    (∀ server : Nat → AttemptOutcome,
      (∀ i, i < 3 → server i = .conn) →
      apiRequest server = (.raised, [.backoff 1, .backoff 2])) := by
  refine ⟨fun server mR attempt fuel hs hlt => apiGo_step_conn hs hlt,
    fun server mR attempt fuel hs hlt => apiGo_step_conn_last hs hlt,
    fun server h => ?_⟩
  show apiGo server 3 0 3 = _
  rw [apiGo_step_conn (h 0 (by omega)) (by omega),
    apiGo_step_conn (h 1 (by omega)) (by omega),
    apiGo_step_conn_last (h 2 (by omega)) (by omega)]
  rfl

/-- Witness for claim C3's amended theorem at the concrete all-failing
server. -/
theorem claim_C3_amended_witness :
    apiRequest connFailServer = (.raised, [.backoff 1, .backoff 2]) :=
  claim_C3_amended.2.2 connFailServer (by decide)

/-- Claim C10: any response that is not a rate-limited 403 (404, 500, a
non-rate-limit 403, or any success) is returned immediately by the attempt
that received it, with no retry and no sleep recorded by that iteration;
only connection exceptions and rate-limited 403s continue the loop. -/
theorem claim_C10 (server : Nat → AttemptOutcome) (mR attempt fuel : Nat) (r : Resp)
    (hs : server attempt = .resp r)
    (h403 : (r.status == 403 && hasRateLimit r.text) = false) :
    apiGo server mR attempt (fuel + 1) = (.ok r, []) :=
  apiGo_step_ok hs h403

/-- Witness for claim C10 at a concrete 404-producing server. -/
theorem claim_C10_witness : apiRequest notFoundServer = (.ok notFoundResp, []) :=
  claim_C10 notFoundServer 3 0 2 notFoundResp rfl (by decide)

/-! ## Pagination

`get_user_repos` (lines 71-92) and `get_commits_for_repo` (lines 95-118).
The GitHub API is an oracle from the 1-based page number to the response
for that page (the constant request parameters `per_page=100`, `type=all`
resp. `author=username` are part of the modelled request and do not vary).
The `while True` loop takes fuel; `none` means the loop has not terminated
within that fuel.
-/

/-- A paginated response: HTTP status and decoded JSON body (a list). -/
structure PageResp (α : Type) where
  status : Nat
  data : List α

/-- The `while True` loop of `get_user_repos`: non-200 breaks (returning
what was accumulated), an empty page breaks, otherwise the page is
appended and the page counter incremented. -/
def getUserReposGo (server : Nat → PageResp α) : Nat → Nat → List α → Option (List α)
  | 0, _, _ => none
  | fuel + 1, page, acc =>
    let r := server page
    if r.status ≠ 200 then some acc
    else if r.data.isEmpty then some acc
    else getUserReposGo server fuel (page + 1) (acc ++ r.data)

/-- `get_user_repos`, starting at page 1 with an empty accumulator. -/
def getUserRepos (server : Nat → PageResp α) (fuel : Nat) : Option (List α) :=
  getUserReposGo server fuel 1 []

/-- The `while True` loop of `get_commits_for_repo`: status 409 (empty
repository) breaks, any other non-200 breaks, an empty page breaks,
otherwise the page is appended. -/
def getCommitsGo (server : Nat → PageResp α) : Nat → Nat → List α → Option (List α)
  | 0, _, _ => none
  | fuel + 1, page, acc =>
    let r := server page
    if r.status = 409 then some acc
    else if r.status ≠ 200 then some acc
    else if r.data.isEmpty then some acc
    else getCommitsGo server fuel (page + 1) (acc ++ r.data)

/-- `get_commits_for_repo`, starting at page 1 with an empty accumulator. -/
def getCommitsForRepo (server : Nat → PageResp α) (fuel : Nat) : Option (List α) :=
  getCommitsGo server fuel 1 []

/-- A server serving the pages `ps` in order (1-based) with status 200,
and an empty 200 page for every later page number. -/
def pagesServer (ps : List (List α)) : Nat → PageResp α :=
  fun k => ⟨200, ps.getD (k - 1) []⟩

theorem getUserReposGo_spec {α : Type} (ps : List (List α))
    (server : Nat → PageResp α) (page : Nat) (acc : List α)
    (hserve : ∀ k, server (page + k) = ⟨200, ps.getD k []⟩)
    (hne : ∀ p ∈ ps, p ≠ []) :
    getUserReposGo server (ps.length + 1) page acc = some (acc ++ ps.flatten) := by
  induction ps generalizing page acc with
  | nil =>
    have h0 := hserve 0
    simp only [Nat.add_zero] at h0
    simp [getUserReposGo, h0]
  | cons q qs ih =>
    have h0 := hserve 0
    simp only [Nat.add_zero, List.getD_cons_zero] at h0
    have hq : q.isEmpty = false := by
      cases q with
      | nil => exact absurd rfl (hne [] (List.mem_cons_self [] qs))
      | cons x xs => rfl
    rw [List.length_cons, getUserReposGo]
    simp only [h0, ne_eq, not_true_eq_false, if_false, hq, Bool.false_eq_true, ite_false]
    rw [ih (page + 1) (acc ++ q) (fun k => by
      have h := hserve (k + 1)
      rw [List.getD_cons_succ] at h
      rw [show page + 1 + k = page + (k + 1) from by omega]
      exact h)
      (fun p hp => hne p (List.mem_cons_of_mem q hp))]
    simp

theorem getCommitsGo_spec {α : Type} (ps : List (List α))
    (server : Nat → PageResp α) (page : Nat) (acc : List α)
    (hserve : ∀ k, server (page + k) = ⟨200, ps.getD k []⟩)
    (hne : ∀ p ∈ ps, p ≠ []) :
    getCommitsGo server (ps.length + 1) page acc = some (acc ++ ps.flatten) := by
  induction ps generalizing page acc with
  | nil =>
    have h0 := hserve 0
    simp only [Nat.add_zero] at h0
    simp [getCommitsGo, h0]
  | cons q qs ih =>
    have h0 := hserve 0
    simp only [Nat.add_zero, List.getD_cons_zero] at h0
    have hq : q.isEmpty = false := by
      cases q with
      | nil => exact absurd rfl (hne [] (List.mem_cons_self [] qs))
      | cons x xs => rfl
    rw [List.length_cons, getCommitsGo]
    simp only [h0, ne_eq, not_true_eq_false, if_false, hq, Bool.false_eq_true, ite_false]
    rw [ih (page + 1) (acc ++ q) (fun k => by
      have h := hserve (k + 1)
      rw [List.getD_cons_succ] at h
      rw [show page + 1 + k = page + (k + 1) from by omega]
      exact h)
      (fun p hp => hne p (List.mem_cons_of_mem q hp))]
    simp

theorem pagesServer_serves {α : Type} (ps : List (List α)) :
    ∀ k, pagesServer ps (1 + k) = ⟨200, ps.getD k []⟩ := by
  intro k
  simp [pagesServer, Nat.add_comm 1 k]

/-- Claim C4: when the server answers every page with status 200, serving
the non-empty pages `ps` in order and then an empty page, both the
repository lister and the per-repository commit lister terminate and
return exactly the concatenation of the pages, preserving page order and
within-page order. -/
theorem claim_C4 {α : Type} (ps : List (List α)) (hne : ∀ p ∈ ps, p ≠ []) :
    getUserRepos (pagesServer ps) (ps.length + 1) = some ps.flatten ∧
      getCommitsForRepo (pagesServer ps) (ps.length + 1) = some ps.flatten := by
  constructor
  · have := getUserReposGo_spec ps (pagesServer ps) 1 [] (pagesServer_serves ps) hne
    simpa [getUserRepos] using this
  · have := getCommitsGo_spec ps (pagesServer ps) 1 [] (pagesServer_serves ps) hne
    simpa [getCommitsForRepo] using this

/-- Witness for claim C4: two full pages and a third partial page (the
spec's own example shape) concatenate in order for both listers. -/
theorem claim_C4_witness :
    getUserRepos (pagesServer [[1, 2], [3, 4], [5]]) 4 = some [1, 2, 3, 4, 5] ∧
      getCommitsForRepo (pagesServer [[1, 2], [3, 4], [5]]) 4 = some [1, 2, 3, 4, 5] :=
  claim_C4 [[1, 2], [3, 4], [5]] (by decide)

/-! ## Sorting

Python `list.sort(key=k, reverse=True)` is a stable sort in descending key
order: the unique permutation that is sorted by `k` descending and keeps
elements with equal keys in input order.  It is modelled by insertion sort
with the relation "my key is at least yours", which satisfies the same
specification (sortedness, permutation and stability are proved below, and
the specification determines the output uniquely).
-/

/-- Keep `a` before `b` when sorting by `key` in descending order. -/
def descRel {α K : Type} [LinearOrder K] (key : α → K) : α → α → Prop :=
  fun a b => key b ≤ key a

instance descRelDecidable {α K : Type} [LinearOrder K] (key : α → K) :
    DecidableRel (descRel key) :=
  fun a b => inferInstanceAs (Decidable (key b ≤ key a))

/-- Model of Python `l.sort(key=key, reverse=True)`. -/
def pySortDesc {α K : Type} [LinearOrder K] (key : α → K) (l : List α) : List α :=
  List.insertionSort (descRel key) l

theorem pySortDesc_perm {α K : Type} [LinearOrder K] (key : α → K) (l : List α) :
    (pySortDesc key l).Perm l :=
  List.perm_insertionSort (descRel key) l

theorem pySortDesc_sorted {α K : Type} [LinearOrder K] (key : α → K) (l : List α) :
    List.Sorted (descRel key) (pySortDesc key l) := by
  haveI : IsTotal α (descRel key) := ⟨fun a b => le_total (key b) (key a)⟩
  haveI : IsTrans α (descRel key) := ⟨fun a b c hab hbc => le_trans hbc hab⟩
  exact List.sorted_insertionSort (descRel key) l

theorem filter_orderedInsert_key {α K : Type} [LinearOrder K] [DecidableEq K] (key : α → K)
    (d : K) (a : α) (m : List α) :
    (List.orderedInsert (descRel key) a m).filter (fun x => decide (key x = d)) =
      if key a = d then a :: m.filter (fun x => decide (key x = d))
      else m.filter (fun x => decide (key x = d)) := by
  induction m with
  | nil =>
    by_cases hd : key a = d <;> simp [List.orderedInsert, hd]
  | cons b m ih =>
    rw [List.orderedInsert]
    by_cases hab : descRel key a b
    · rw [if_pos hab]
      by_cases hd : key a = d <;> simp [List.filter_cons, hd]
    · rw [if_neg hab]
      have hba : key a < key b := lt_of_not_le hab
      by_cases hd : key a = d
      · have hbd : ¬ key b = d := fun he =>
          absurd hba (not_lt.2 ((he.trans hd.symm).le))
        rw [List.filter_cons, ih]
        simp [hd, hbd]
      · rw [List.filter_cons, ih]
        simp [hd, List.filter_cons]

theorem pySortDesc_stable {α K : Type} [LinearOrder K] [DecidableEq K] (key : α → K)
    (d : K) (l : List α) :
    (pySortDesc key l).filter (fun x => decide (key x = d)) =
      l.filter (fun x => decide (key x = d)) := by
  induction l with
  | nil => rfl
  | cons a l ih =>
    rw [pySortDesc, List.insertionSort, filter_orderedInsert_key]
    rw [pySortDesc] at ih
    by_cases hd : key a = d
    · rw [if_pos hd, ih, List.filter_cons, if_pos (by simpa using hd)]
    · rw [if_neg hd, ih, List.filter_cons, if_neg (by simpa using hd)]

/-! ## Commits and patches

The aggregation in `fetch_user_commits` (lines 613-636) and `main`
(lines 880-922): commits are tagged with `(repo, owner)`, sorted by
`x["commit"]["commit"]["author"]["date"]` descending (`authorDate` below),
and patches are fetched from an oracle (`get_commit_patch` returns the
patch text or `None`; `patches[sha] = patch or ""`).
-/

/-- The commit object of the GitHub API as the code reads it:
`commit["sha"]`, `commit["commit"]["author"]["date"]`,
`commit["commit"]["message"]`. -/
structure CommitObj where
  sha : String
  authorDate : String
  message : String
deriving DecidableEq

/-- A commit tagged with its repository and owner, the element type of the
`all_commits` list. -/
structure TaggedCommit where
  repo : String
  owner : String
  commit : CommitObj
deriving DecidableEq

/-- The sort in `fetch_user_commits` line 627 and `main` lines 900-903:
`all_commits.sort(key=lambda x: x["commit"]["commit"]["author"]["date"],
reverse=True)`. -/
def sortCommitsDesc (l : List TaggedCommit) : List TaggedCommit :=
  pySortDesc (fun x => x.commit.authorDate) l

/-- Claim C5: the aggregated commit list is sorted by author timestamp
descending, it is a permutation of the input, and commits with equal
timestamps keep their relative input order (the filter at any fixed
timestamp is unchanged — stability). -/
theorem claim_C5 (l : List TaggedCommit) :
    (sortCommitsDesc l).Perm l ∧
      List.Sorted (descRel fun x => x.commit.authorDate) (sortCommitsDesc l) ∧
      ∀ d : String,
        (sortCommitsDesc l).filter (fun x => decide (x.commit.authorDate = d)) =
          l.filter (fun x => decide (x.commit.authorDate = d)) :=
  ⟨pySortDesc_perm _ l, pySortDesc_sorted _ l, fun d => pySortDesc_stable _ d l⟩

/-- The patch-fetching loop of `fetch_user_commits` lines 630-634: only
`all_commits[:50]` is traversed; each traversed sha is sent to
`get_commit_patch` (the oracle) and stored as `patch or ""`. -/
def fetchPatchesBatch (sorted : List TaggedCommit)
    (oracle : String → Option String) : List (String × String) :=
  (sorted.take 50).map fun it => (it.commit.sha, (oracle it.commit.sha).getD "")

/-- The patch-fetching loop of `main` lines 909-921: it traverses
`all_commits` in full (`for i, item in enumerate(all_commits)`). -/
def fetchPatchesMain (sorted : List TaggedCommit)
    (oracle : String → Option String) : List (String × String) :=
  sorted.map fun it => (it.commit.sha, (oracle it.commit.sha).getD "")

/-- A concrete sorted list of 51 commits with distinct shas. -/
def commits51 : List TaggedCommit :=
  (List.range 51).map fun i => ⟨"r", "o", ⟨toString i, "2024", "m"⟩⟩

/-- Claim C6, counterexample: in the single-user path (`main`), patches are
fetched for every commit — 51 fetches on a 51-commit list, violating "at
most the first 50 entries" there. -/
theorem claim_C6_counterexample :
    (fetchPatchesMain commits51 fun _ => none).length = 51 ∧
      ¬ (fetchPatchesMain commits51 fun _ => none).length ≤ 50 := by
  constructor
  · decide
  · decide

/-- Claim C6, amended: the 50-commit cap holds for the batch path
(`fetch_user_commits`): whatever the sorted list and the patch oracle, the
patch loop touches exactly the shas of the first `min 50 (length)` entries,
in order, so at most 50; the single-user `main` path instead fetches a patch
for every commit. -/
theorem claim_C6_amended (l : List TaggedCommit) (oracle : String → Option String) :
    (fetchPatchesBatch l oracle).length ≤ 50 ∧
      (fetchPatchesBatch l oracle).map Prod.fst =
        (l.take 50).map (fun it => it.commit.sha) ∧
      (fetchPatchesMain l oracle).length = l.length := by
  refine ⟨?_, ?_, by simp [fetchPatchesMain]⟩
  · simp [fetchPatchesBatch]
  · simp only [fetchPatchesBatch, List.map_map]
    rfl

/-! ## Batch orchestrator

`evaluate_candidates` (lines 639-672).  Fetching and analysing one
candidate is a network/LLM effect, modelled as an oracle from the username
to what that candidate's iteration produces: an exception anywhere inside
the `try` (fetch or evaluation), an empty commit list (the `continue`
without appending), or a successful analysis.  The analysis dictionary is
abstracted to the one field the orchestrator reads,
`analysis.get("job_fit_score", 0)` (scores are rationals: the LLM returns
values such as 6.5). -/

/-- Outcome of one candidate's iteration. -/
inductive FetchEval where
  | errored
  | noCommits
  | ok (n : Nat) (a : Option ℚ)
deriving DecidableEq

/-- An entry of `results`: username, `commits_analyzed`, and the analysis
abstracted to its optional `job_fit_score` field. -/
structure CandResult where
  username : String
  commitsAnalyzed : Nat
  jobFit : Option ℚ
deriving DecidableEq

/-- `x["analysis"].get("job_fit_score", 0)`. -/
def fitScore (r : CandResult) : ℚ := r.jobFit.getD 0

/-- The `for` loop of `evaluate_candidates`: an exception is caught and the
candidate skipped, an empty commit list is skipped, a successful analysis
is appended. -/
def evalLoop (oracle : String → FetchEval) : List String → List CandResult
  | [] => []
  | u :: rest =>
    match oracle u with
    | .ok n a => ⟨u, n, a⟩ :: evalLoop oracle rest
    | _ => evalLoop oracle rest

/-- `evaluate_candidates`: run the loop, then
`results.sort(key=lambda x: x["analysis"].get("job_fit_score", 0),
reverse=True)`. -/
def evaluateCandidates (oracle : String → FetchEval) (users : List String) :
    List CandResult :=
  pySortDesc fitScore (evalLoop oracle users)

/-- The loop keeps exactly the successfully analysed candidates, in input
order: an exception for one candidate does not disturb the others. -/
theorem evalLoop_eq_filterMap (oracle : String → FetchEval) (users : List String) :
    evalLoop oracle users = users.filterMap fun u =>
      match oracle u with
      | .ok n a => some ⟨u, n, a⟩
      | _ => none := by
  induction users with
  | nil => rfl
  | cons u rest ih =>
    rw [evalLoop, List.filterMap_cons]
    cases h : oracle u <;> simp [h, ih]

/-- Claim C7: whatever each candidate's fetch/evaluation does, the batch
result contains precisely the successfully analysed candidates (a failing
candidate is skipped without aborting the batch), and it is sorted in
descending order of `job_fit_score` (defaulting to 0 when absent), stably. -/
theorem claim_C7 (oracle : String → FetchEval) (users : List String) :
    (evaluateCandidates oracle users).Perm
        (users.filterMap fun u =>
          match oracle u with
          | .ok n a => some ⟨u, n, a⟩
          | _ => none) ∧
      List.Sorted (descRel fitScore) (evaluateCandidates oracle users) ∧
      ∀ q : ℚ,
        (evaluateCandidates oracle users).filter (fun r => decide (fitScore r = q)) =
          (evalLoop oracle users).filter (fun r => decide (fitScore r = q)) := by
  refine ⟨?_, pySortDesc_sorted fitScore _, fun q => pySortDesc_stable fitScore q _⟩
  rw [← evalLoop_eq_filterMap]
  exact pySortDesc_perm fitScore _

/-! ### Facts about the fence markers -/

theorem fenceSep_prefix_json : fenceSep <+: fenceSepJson := by decide

theorem newline_not_mem_fenceSep : '\n' ∉ fenceSep := by decide

theorem newline_not_mem_fenceSepJson : '\n' ∉ fenceSepJson := by decide

theorem afterFirst_fenceSepJson (T : List Char) :
    afterFirst fenceSepJson (fenceSepJson ++ T) = some T :=
  afterFirst_append_self '`' "``json".toList T

theorem afterFirst_fenceSep (T : List Char) :
    afterFirst fenceSep (fenceSep ++ T) = some T :=
  afterFirst_append_self '`' "``".toList T

/-- A marker (all of whose characters differ from `'\n'`) that does not
occur in `S` does not occur in `S` wrapped in newlines either. -/
theorem not_sub_wrap {p S : List Char} (hlen : 1 < p.length) (hnl : '\n' ∉ p)
    (hS : ¬ p <:+: S) : ¬ p <:+: ('\n' :: (S ++ ['\n'])) := by
  have h1 : ¬ p <:+: S ++ ['\n'] := by
    refine not_sub_append_head hS (not_sub_of_length_lt (by simpa using hlen)) ?_
    intro c hc
    simp only [List.head?_cons, Option.some.injEq] at hc
    rw [← hc]
    exact hnl
  have h2 : ¬ p <:+: ['\n'] ++ (S ++ ['\n']) := by
    refine not_sub_append_last (not_sub_of_length_lt (by simpa using hlen)) h1 ?_
    intro c hc
    simp only [List.getLast?_singleton, Option.some.injEq] at hc
    rw [← hc]
    exact hnl
  simpa using h2

theorem getLast?_wrap (S : List Char) :
    ('\n' :: (S ++ ['\n'])).getLast? = some '\n' := by
  rw [show ('\n' :: (S ++ ['\n'])) = ('\n' :: S) ++ ['\n'] by simp]
  exact List.getLast?_concat _

/-- With no fence marker in the reply, step 1 leaves the text unchanged. -/
theorem stripFences_no_fence {text : List Char} (h : ¬ fenceSep <:+: text) :
    stripFences text = text := by
  have hj : ¬ fenceSepJson <:+: text := fun hx =>
    h (sub_of_prefix_trans fenceSep_prefix_json hx)
  simp [stripFences, hj, h]

theorem pyStrip_wrap (S : List Char) :
    pyStrip ('\n' :: (S ++ ['\n'])) = pyStrip S := by
  rw [pyStrip_cons_ws (by decide), pyStrip_concat_ws (by decide)]

theorem beforeFirst_wrap_fence {S : List Char} (hS : ¬ fenceSep <:+: S) :
    beforeFirst fenceSep (('\n' :: (S ++ ['\n'])) ++ fenceSep) =
      '\n' :: (S ++ ['\n']) := by
  have hu : ¬ fenceSep <:+: ('\n' :: (S ++ ['\n'])) :=
    not_sub_wrap (by decide) newline_not_mem_fenceSep hS
  have h := beforeFirst_clean_junction (p := fenceSep) [] (by decide) hu ?_
  · simpa using h
  · intro c hc
    rw [getLast?_wrap] at hc
    rw [← Option.some.inj hc]
    exact newline_not_mem_fenceSep

theorem stripFences_fencedJson {S : List Char} (hS : ¬ fenceSep <:+: S) :
    stripFences (fencedJson S) = '\n' :: (S ++ ['\n']) := by
  have hfj : fencedJson S = fenceSepJson ++ (('\n' :: (S ++ ['\n'])) ++ fenceSep) := by
    simp [fencedJson]
  have hc1 : fenceSepJson <:+: fencedJson S := by
    rw [hfj]
    exact (fenceSepJson.prefix_append _).isInfix
  rw [stripFences, if_pos hc1, hfj, afterFirst_fenceSepJson]
  exact beforeFirst_wrap_fence hS

theorem stripFences_fencedPlain {S : List Char} (hS : ¬ fenceSep <:+: S) :
    stripFences (fencedPlain S) = '\n' :: (S ++ ['\n']) := by
  have hSj : ¬ fenceSepJson <:+: S := fun hx =>
    hS (sub_of_prefix_trans fenceSep_prefix_json hx)
  have hju : ¬ fenceSepJson <:+: ('\n' :: (S ++ ['\n'])) :=
    not_sub_wrap (by decide) newline_not_mem_fenceSepJson hSj
  have hfp : fencedPlain S = fenceSep ++ (('\n' :: (S ++ ['\n'])) ++ fenceSep) := by
    simp [fencedPlain]
  have hc1 : ¬ fenceSepJson <:+: fencedPlain S := by
    rw [hfp]
    refine not_sub_append_head (not_sub_of_length_lt (by decide)) ?_ ?_
    · refine not_sub_append_last hju (not_sub_of_length_lt (by decide)) ?_
      intro c hc
      rw [getLast?_wrap] at hc
      rw [← Option.some.inj hc]
      exact newline_not_mem_fenceSepJson
    · intro c hc
      simp only [List.cons_append, List.head?_cons, Option.some.injEq] at hc
      rw [← hc]
      exact newline_not_mem_fenceSepJson
  have hc2 : fenceSep <:+: fencedPlain S := by
    rw [hfp]
    exact (fenceSep.prefix_append _).isInfix
  rw [stripFences, if_neg hc1, if_pos hc2, hfp, afterFirst_fenceSep]
  exact beforeFirst_wrap_fence hS

/-- Claim C8, counterexample: for a fenced non-JSON reply the fallback
carries the fence-stripped text, not the original reply: the reply
"```\nhello\n```" produces the fallback payload "\nhello\n" (the code
rebinds `response_text` before `json.loads` runs, and the `except` branch
returns the rebound value). -/
theorem claim_C8_counterexample :
    extractAndParse jsonLoads "```\nhello\n```".toList =
        .fallback "\nhello\n".toList ∧
      "\nhello\n".toList ≠ "```\nhello\n```".toList := by
  exact ⟨rfl, by decide⟩

/-- Claim C8, amended: on any reply whose fence-stripped text does not
decode as JSON, the parsers return the fallback object (they never raise:
the indexing in step 1 is guarded by the `in` checks, and the decode error
is caught), and the fallback carries the reply text after fence stripping —
which is the original reply text exactly when the reply contains no
"```". -/
theorem claim_C8_amended (loads : List Char → Option Json) (text : List Char)
    (hfail : loads (pyStrip (stripFences text)) = none) :
    extractAndParse loads text = .fallback (stripFences text) ∧
      (¬ fenceSep <:+: text → extractAndParse loads text = .fallback text) := by
  constructor
  · simp [extractAndParse, hfail]
  · intro h
    simp [extractAndParse, stripFences_no_fence h, stripFences_no_fence h ▸ hfail]

/-- Witness for claim C8's amended theorem: the unfenced non-JSON reply
"hello" falls back carrying exactly "hello". -/
theorem claim_C8_amended_witness :
    extractAndParse jsonLoads "hello".toList = .fallback "hello".toList :=
  (claim_C8_amended jsonLoads "hello".toList rfl).2 (by decide)

/-- Claim C9, counterexample: fencing is not transparent for every fenced
reply.  A fence with the language tag `javascript` around the JSON object
`{}` falls back instead of decoding `{}` (only the `json` tag is special-
cased; any other tag survives into the text handed to `json.loads`), and a
JSON object whose text itself contains "```" decodes differently fenced
and unfenced. -/
theorem claim_C9_counterexample :
    extractAndParse jsonLoads "\x7b\x7d".toList = .parsed (Json.jobj []) ∧
      extractAndParse jsonLoads "```javascript\n\x7b\x7d\n```".toList =
        .fallback "javascript\n\x7b\x7d\n".toList ∧
      extractAndParse jsonLoads "```javascript\n\x7b\x7d\n```".toList ≠
        extractAndParse jsonLoads "\x7b\x7d".toList ∧
      extractAndParse jsonLoads "\x7b\"a\": \"```\"\x7d".toList =
        .fallback "\"\x7d".toList ∧
      extractAndParse jsonLoads (fencedJson "\x7b\"a\": \"```\"\x7d".toList) =
        .fallback "\n\x7b\"a\": \"".toList := by
  refine ⟨rfl, rfl, fun h => ?_, rfl, rfl⟩
  exact ParseResult.noConfusion h

/-- Claim C9, amended: for every JSON text `S` that contains no "```"
and decodes (`loads (S.strip()) = some J`), the reply `S` alone, the reply
`S` fenced with the `json` language tag, and the reply `S` fenced with no
language tag are all parsed to the same decoded object `J`. -/
theorem claim_C9_amended (loads : List Char → Option Json) (S : List Char)
    (J : Json) (hS : ¬ fenceSep <:+: S) (hL : loads (pyStrip S) = some J) :
    extractAndParse loads S = .parsed J ∧
      extractAndParse loads (fencedJson S) = .parsed J ∧
      extractAndParse loads (fencedPlain S) = .parsed J := by
  refine ⟨?_, ?_, ?_⟩
  · simp [extractAndParse, stripFences_no_fence hS, hL]
  · simp [extractAndParse, stripFences_fencedJson hS, pyStrip_wrap, hL]
  · simp [extractAndParse, stripFences_fencedPlain hS, pyStrip_wrap, hL]

/-- Witness for claim C9's amended theorem: the JSON object text `{}`
decodes identically unfenced, json-tag-fenced and untagged-fenced. -/
theorem claim_C9_amended_witness :
    extractAndParse jsonLoads "\x7b\x7d".toList = .parsed (Json.jobj []) ∧
      extractAndParse jsonLoads (fencedJson "\x7b\x7d".toList) = .parsed (Json.jobj []) ∧
      extractAndParse jsonLoads (fencedPlain "\x7b\x7d".toList) = .parsed (Json.jobj []) :=
  claim_C9_amended jsonLoads "\x7b\x7d".toList (Json.jobj []) (by decide) rfl

end GithubAnalyzer
